import Mathlib

/-!
Verification of the pymetalink download engine (`metalink/download.py`)
against its natural-language specification.

Python strings are modelled as `List Char` (`PyStr`); Python byte strings
as `List Nat` with entries `< 256`; Python exceptions as `Except PyErr`.
Integer arithmetic (`//`, `int(...)` truncation of nonnegative true
division) is modelled with `Nat` floor division; the one place the code
performs true division on potentially large integers
(`Segment_Manager.run`) is modelled with exact rationals.
-/

namespace Pymetalink

/-- Python strings, modelled as lists of characters. -/
abbrev PyStr := List Char

deriving instance DecidableEq for Except

/-- Python exception kinds raised by the modelled code paths. -/
inductive PyErr where
  | keyError
  | indexError
  | typeError
  | valueError
  | zeroDivisionError
  deriving DecidableEq, Repr

/-- `str.split(sep)` for a one-character separator: Python keeps empty
fields, and splitting the empty string yields `[""]`. -/
def pySplit (sep : Char) : PyStr → List PyStr
  | [] => [[]]
  | c :: rest =>
    if c = sep then [] :: pySplit sep rest
    else
      match pySplit sep rest with
      | g :: gs => (c :: g) :: gs
      | [] => [[c]]

/-- `sep.join(parts)` for a one-character separator. -/
def pyJoin (sep : Char) : List PyStr → PyStr
  | [] => []
  | [b] => b
  | b :: bs => b ++ sep :: pyJoin sep bs

/-- The decimal digit character for `d < 10` (as produced by `str(...)`). -/
def digitChar : Nat → Char
  | 0 => '0' | 1 => '1' | 2 => '2' | 3 => '3' | 4 => '4'
  | 5 => '5' | 6 => '6' | 7 => '7' | 8 => '8' | _ => '9'

/-- Whether a character is a decimal digit. -/
def isDigitCh (c : Char) : Bool := 48 ≤ c.toNat && c.toNat ≤ 57

/-- Numeric value of a decimal digit character. -/
def digitVal (c : Char) : Nat := c.toNat - 48

/-- Fuel-driven core of decimal rendering (structural recursion so that
the kernel can evaluate it). -/
def renderNatCore (fuel n : Nat) (acc : PyStr) : PyStr :=
  match fuel with
  | 0 => acc
  | fuel' + 1 =>
    if n = 0 then acc
    else renderNatCore fuel' (n / 10) (digitChar (n % 10) :: acc)

/-- Python `str(n)` on a nonnegative integer: its decimal numeral. -/
def renderNat (n : Nat) : PyStr :=
  if n = 0 then ['0'] else renderNatCore n n []

/-- Python `int(s)` on a string, modelled for unsigned decimal numerals:
`none` is a raised `ValueError`. -/
def parseNat (s : PyStr) : Option Nat :=
  if s ≠ [] ∧ s.all isDigitCh then
    some (Nat.ofDigits 10 ((s.map digitVal).reverse))
  else none

lemma digitChar_eq (d : Nat) (hd : d < 10) :
    isDigitCh (digitChar d) = true ∧ digitVal (digitChar d) = d := by
  interval_cases d <;> exact ⟨rfl, rfl⟩

lemma renderNatCore_eq_digits (fuel : Nat) :
    ∀ n acc, n ≤ fuel →
      renderNatCore fuel n acc = ((Nat.digits 10 n).map digitChar).reverse ++ acc := by
  induction fuel with
  | zero =>
    intro n acc hn
    have : n = 0 := Nat.le_zero.mp hn
    subst this
    simp [renderNatCore]
  | succ fuel ih =>
    intro n acc hn
    unfold renderNatCore
    by_cases h0 : n = 0
    · subst h0; simp
    · rw [if_neg h0]
      have hdiv : n / 10 ≤ fuel := by
        have : n / 10 < n := Nat.div_lt_self (Nat.pos_of_ne_zero h0) (by norm_num)
        omega
      rw [ih (n / 10) _ hdiv]
      rw [Nat.digits_def' (b := 10) (by norm_num) (Nat.pos_of_ne_zero h0)]
      simp

lemma renderNat_eq_digits (n : Nat) (h : n ≠ 0) :
    renderNat n = ((Nat.digits 10 n).map digitChar).reverse := by
  unfold renderNat
  rw [if_neg h, renderNatCore_eq_digits n n [] le_rfl, List.append_nil]

lemma renderNat_all_digits (n : Nat) : (renderNat n).all isDigitCh = true := by
  by_cases h : n = 0
  · subst h; rfl
  · rw [renderNat_eq_digits n h, List.all_eq_true]
    intro c hc
    rw [List.mem_reverse, List.mem_map] at hc
    obtain ⟨d, hd, rfl⟩ := hc
    exact (digitChar_eq d (Nat.digits_lt_base (by norm_num) hd)).1

lemma renderNat_ne_nil (n : Nat) : renderNat n ≠ [] := by
  by_cases h : n = 0
  · subst h; simp [renderNat]
  · rw [renderNat_eq_digits n h]
    simp [Nat.digits_ne_nil_iff_ne_zero, h]

lemma parseNat_renderNat (n : Nat) : parseNat (renderNat n) = some n := by
  unfold parseNat
  rw [if_pos ⟨renderNat_ne_nil n, renderNat_all_digits n⟩]
  congr 1
  by_cases h : n = 0
  · subst h; rfl
  · rw [renderNat_eq_digits n h]
    rw [List.map_reverse, List.reverse_reverse, List.map_map]
    have hmap : (Nat.digits 10 n).map (digitVal ∘ digitChar) = Nat.digits 10 n := by
      have := List.map_congr_left (l := Nat.digits 10 n)
        (f := digitVal ∘ digitChar) (g := id)
        (fun d hd => (digitChar_eq d (Nat.digits_lt_base (by norm_num) hd)).2)
      simpa using this
    rw [hmap]
    exact Nat.ofDigits_digits 10 n

lemma pySplit_ne_nil (sep : Char) (s : PyStr) : pySplit sep s ≠ [] := by
  induction s with
  | nil => simp [pySplit]
  | cons c rest ih =>
    unfold pySplit
    split
    · simp
    · cases h : pySplit sep rest with
      | nil => exact absurd h ih
      | cons g gs => simp

lemma pySplit_cons_self (sep : Char) (t : PyStr) :
    pySplit sep (sep :: t) = [] :: pySplit sep t := by
  conv_lhs => unfold pySplit
  rw [if_pos rfl]

lemma pySplit_nosep (sep : Char) (s : PyStr) (h : sep ∉ s) : pySplit sep s = [s] := by
  induction s with
  | nil => rfl
  | cons c rest ih =>
    have hc : c ≠ sep := by
      intro hceq; subst hceq; exact h (List.mem_cons_self c rest)
    have hrest : sep ∉ rest := fun hm => h (List.mem_cons_of_mem c hm)
    conv_lhs => unfold pySplit
    rw [if_neg hc, ih hrest]

lemma pySplit_append (sep : Char) (xs rest : PyStr) (h : sep ∉ xs) :
    pySplit sep (xs ++ rest) =
      (xs ++ (pySplit sep rest).headI) :: (pySplit sep rest).tail := by
  induction xs with
  | nil =>
    simp only [List.nil_append]
    cases hr : pySplit sep rest with
    | nil => exact absurd hr (pySplit_ne_nil sep rest)
    | cons g gs => simp
  | cons c cs ih =>
    have hc : c ≠ sep := by
      intro hceq; subst hceq; exact h (List.mem_cons_self c cs)
    have hcs : sep ∉ cs := fun hm => h (List.mem_cons_of_mem c hm)
    simp only [List.cons_append]
    conv_lhs => unfold pySplit
    rw [if_neg hc, ih hcs]

lemma pySplit_pyJoin (sep : Char) (parts : List PyStr) (hne : parts ≠ [])
    (h : ∀ p ∈ parts, sep ∉ p) : pySplit sep (pyJoin sep parts) = parts := by
  induction parts with
  | nil => exact absurd rfl hne
  | cons b bs ih =>
    cases bs with
    | nil =>
      simp only [pyJoin]
      exact pySplit_nosep sep b (h b (List.mem_cons_self b []))
    | cons b2 bs2 =>
      have hjoin : pyJoin sep (b :: b2 :: bs2) = b ++ sep :: pyJoin sep (b2 :: bs2) := rfl
      rw [hjoin, pySplit_append sep b _ (h b (List.mem_cons_self b _))]
      rw [pySplit_cons_self, ih (by simp) (fun p hp => h p (List.mem_cons_of_mem b hp))]
      simp

lemma mem_pyJoin (sep : Char) (parts : List PyStr) (c : Char)
    (hc : c ∈ pyJoin sep parts) : c = sep ∨ ∃ p ∈ parts, c ∈ p := by
  induction parts with
  | nil => simp [pyJoin] at hc
  | cons b bs ih =>
    cases bs with
    | nil =>
      simp only [pyJoin] at hc
      exact Or.inr ⟨b, List.mem_cons_self b [], hc⟩
    | cons b2 bs2 =>
      have : pyJoin sep (b :: b2 :: bs2) = b ++ sep :: pyJoin sep (b2 :: bs2) := rfl
      rw [this, List.mem_append] at hc
      rcases hc with hb | hrest
      · exact Or.inr ⟨b, List.mem_cons_self b _, hb⟩
      · rcases List.mem_cons.mp hrest with rfl | hj
        · exact Or.inl rfl
        · rcases ih hj with h1 | ⟨p, hp, hcp⟩
          · exact Or.inl h1
          · exact Or.inr ⟨p, List.mem_cons_of_mem b hp, hcp⟩

lemma digit_ne_colon_comma (c : Char) (h : isDigitCh c = true) :
    c ≠ ':' ∧ c ≠ ',' := by
  unfold isDigitCh at h
  rw [Bool.and_eq_true, decide_eq_true_eq, decide_eq_true_eq] at h
  have hcolon : (':').toNat = 58 := rfl
  have hcomma : (',').toNat = 44 := rfl
  constructor
  · intro hc; subst hc; omega
  · intro hc; subst hc; omega

/-! ## The resume store (`class FileResume`)

The persisted state is the piece size and the completed-block list; the
blocks are kept as Python *strings*, exactly as in the source. -/

/-- The in-memory state of `FileResume`: `self.size` and `self.blocks`. -/
structure FileResume where
  size : Nat
  blocks : List PyStr
  deriving DecidableEq, Repr

/-- `FileResume._write`: the single line written to the resume file,
`"<size>:" + ",".join(blocks)`. -/
def FileResume.write (r : FileResume) : PyStr :=
  renderNat r.size ++ ':' :: pyJoin ',' r.blocks

/-- `FileResume._read`: parse one line; on unpack failure (`split(":")`
not yielding two fields) or `int()` failure the `except` clause resets
the record to size `0` with no blocks. -/
def FileResume.read (line : PyStr) : FileResume :=
  match pySplit ':' line with
  | [szStr, blkStr] =>
    match parseNat szStr with
    | some n => ⟨n, pySplit ',' blkStr⟩
    | none => ⟨0, []⟩
  | _ => ⟨0, []⟩

lemma renderNat_no_colon_comma (n : Nat) (c : Char) (hc : c ∈ renderNat n) :
    c ≠ ':' ∧ c ≠ ',' := by
  have := renderNat_all_digits n
  rw [List.all_eq_true] at this
  exact digit_ne_colon_comma c (this c hc)

/-- C3 — claim theorem (amended): writing a resume record whose block
list is the decimal rendering of a *non-empty* list of indices and
reading it back restores the same `(piece_size, blocks)` pair. -/
theorem resume_write_read_roundtrip (size : Nat) (idxs : List Nat)
    (hne : idxs ≠ []) :
    FileResume.read (FileResume.write ⟨size, idxs.map renderNat⟩) =
      ⟨size, idxs.map renderNat⟩ := by
  have hjoin_nocolon : ':' ∉ pyJoin ',' (idxs.map renderNat) := by
    intro hmem
    rcases mem_pyJoin ',' _ ':' hmem with h1 | ⟨p, hp, hcp⟩
    · exact absurd h1 (by decide)
    · rcases List.mem_map.mp hp with ⟨i, _, rfl⟩
      exact (renderNat_no_colon_comma i ':' hcp).1 rfl
  have hsz_nocolon : ':' ∉ renderNat size := by
    intro hmem
    exact (renderNat_no_colon_comma size ':' hmem).1 rfl
  unfold FileResume.write FileResume.read
  rw [pySplit_append ':' _ _ hsz_nocolon]
  rw [pySplit_cons_self, pySplit_nosep ':' _ hjoin_nocolon]
  simp only [List.headI, List.tail, List.append_nil]
  rw [parseNat_renderNat]
  rw [pySplit_pyJoin ',' _ (by simpa using hne)
    (fun p hp hmem => by
      rcases List.mem_map.mp hp with ⟨i, _, rfl⟩
      exact (renderNat_no_colon_comma i ',' hmem).2 rfl)]

/-- C3 — witness: a concrete non-empty round trip. -/
theorem resume_write_read_roundtrip_witness :
    ([0, 2] : List Nat) ≠ [] ∧
    FileResume.read (FileResume.write ⟨5, [0, 2].map renderNat⟩) =
      ⟨5, [0, 2].map renderNat⟩ :=
  ⟨by decide, resume_write_read_roundtrip 5 [0, 2] (by decide)⟩

/-- C3 — counterexample: with the *empty* block list the round trip
fails: the line `"7:"` reads back as the one-element block list
containing the empty string, not as the empty list. -/
theorem resume_write_read_empty_cex :
    FileResume.read (FileResume.write ⟨7, []⟩) ≠ ⟨7, []⟩ ∧
    FileResume.read (FileResume.write ⟨7, []⟩) = ⟨7, [[]]⟩ := by
  constructor
  · decide
  · decide

/-- Loop of `FileResume.start_byte`: `int(value)` is evaluated each
iteration (a malformed entry raises `ValueError`); at the first entry
whose value differs from its position `count` the method returns
`(count + 1) * self.size`; if the loop completes it returns `None`. -/
def startByteLoop (size : Nat) : List PyStr → Nat → Except PyErr (Option Nat)
  | [], _ => .ok none
  | v :: rest, count =>
    match parseNat v with
    | none => .error .valueError
    | some n =>
      if n ≠ count then .ok (some ((count + 1) * size))
      else startByteLoop size rest (count + 1)

/-- `FileResume.start_byte`: `0` for an empty block list, otherwise the
scan above. -/
def FileResume.start_byte (r : FileResume) : Except PyErr (Option Nat) :=
  if r.blocks.length = 0 then .ok (some 0)
  else startByteLoop r.size r.blocks 0

/-- C5 — the code evaluated at the failing input: with piece size 16 and
completed blocks `["1"]`, `start_byte` returns byte 16, although piece 0
(bytes 0–15) is not completed; the claim (and the method's own docstring
"all previous are OK") requires byte 0. -/
theorem start_byte_off_by_one :
    FileResume.start_byte ⟨16, [['1']]⟩ = .ok (some 16) ∧
    (0 : Nat) * 16 = 0 := by
  constructor
  · decide
  · decide

/-! ## `FileResume.update_block_size`

The Python 3 source divides with `/` (true division, yielding a float)
in the mid-list branch and passes the result to `range`, which raises
`TypeError`; the post-loop branch wraps the same expressions in `int()`
(truncation, i.e. floor for nonnegative values, modelled by `Nat`
division). -/

/-- The `for value in self.blocks` loop of `update_block_size`. State:
position `count`, accumulated `total`, and `offset` (position of the
first entry equal to its position in the current run). Reaching the
`elif offset is not None` branch evaluates
`(offset * self.size) / size` and then `range(float, …)`: with
`size = 0` that raises `ZeroDivisionError`, otherwise `TypeError`.
On normal exit it yields the pending `(offset, total)` run, if any. -/
def ubsLoop (oldSize newSize : Nat) :
    List PyStr → Nat → Nat → Option Nat → Except PyErr (Option (Nat × Nat))
  | [], _, total, offset => .ok (offset.map fun o => (o, total))
  | v :: rest, count, total, offset =>
    match parseNat v with
    | none => .error .valueError
    | some n =>
      if n = count then
        ubsLoop oldSize newSize rest (count + 1) (total + oldSize)
          (some (offset.getD count))
      else
        match offset with
        | some _ => .error (if newSize = 0 then .zeroDivisionError else .typeError)
        | none => ubsLoop oldSize newSize rest (count + 1) total none

/-- After the loop of `update_block_size`: if a pending run
`(offset, total)` remains, emit
`range(int(offset*old/new), int(offset*old/new + total/new))`
(`int()` truncation of nonnegative true division is `Nat` floor
division, and `int(start + total/new) = start + total // new` for
integral `start`) as the new block list, rendered back to strings. -/
def ubsFinish (oldSize newSize : Nat) (res : Option (Nat × Nat)) :
    Except PyErr FileResume :=
  match res with
  | none => .ok ⟨newSize, []⟩
  | some (o, total) =>
    if newSize = 0 then .error .zeroDivisionError
    else
      .ok ⟨newSize,
        (List.range' (o * oldSize / newSize) (total / newSize)).map renderNat⟩

/-- `FileResume.update_block_size`: no-op when the size is unchanged;
otherwise run the loop, rewrite the blocks, and persist with the new
size (`set_block_size`). -/
def FileResume.update_block_size (r : FileResume) (size : Nat) :
    Except PyErr FileResume :=
  if r.size = size then .ok r
  else
    match ubsLoop r.size size r.blocks 0 0 none with
    | .error e => .error e
    | .ok res => ubsFinish r.size size res

lemma update_block_size_of_loop_ok (r : FileResume) (newSize : Nat)
    (hne : r.size ≠ newSize) (res : Option (Nat × Nat))
    (hloop : ubsLoop r.size newSize r.blocks 0 0 none = .ok res) :
    r.update_block_size newSize = ubsFinish r.size newSize res := by
  unfold FileResume.update_block_size
  rw [if_neg hne, hloop]

lemma update_block_size_of_loop_err (r : FileResume) (newSize : Nat)
    (hne : r.size ≠ newSize) (e : PyErr)
    (hloop : ubsLoop r.size newSize r.blocks 0 0 none = .error e) :
    r.update_block_size newSize = .error e := by
  unfold FileResume.update_block_size
  rw [if_neg hne, hloop]

/-- The loop of `update_block_size` on already-parsed (numeric) blocks. -/
def ubsLoopN (oldSize newSize : Nat) :
    List Nat → Nat → Nat → Option Nat → Except PyErr (Option (Nat × Nat))
  | [], _, total, offset => .ok (offset.map fun o => (o, total))
  | n :: rest, count, total, offset =>
    if n = count then
      ubsLoopN oldSize newSize rest (count + 1) (total + oldSize)
        (some (offset.getD count))
    else
      match offset with
      | some _ => .error (if newSize = 0 then .zeroDivisionError else .typeError)
      | none => ubsLoopN oldSize newSize rest (count + 1) total none

lemma ubsLoop_cons (oldSize newSize : Nat) (v : PyStr) (rest : List PyStr)
    (count total : Nat) (offset : Option Nat) :
    ubsLoop oldSize newSize (v :: rest) count total offset =
      match parseNat v with
      | none => .error .valueError
      | some n =>
        if n = count then
          ubsLoop oldSize newSize rest (count + 1) (total + oldSize)
            (some (offset.getD count))
        else
          match offset with
          | some _ =>
            .error (if newSize = 0 then .zeroDivisionError else .typeError)
          | none => ubsLoop oldSize newSize rest (count + 1) total none := rfl

lemma ubsLoopN_cons (oldSize newSize : Nat) (n : Nat) (rest : List Nat)
    (count total : Nat) (offset : Option Nat) :
    ubsLoopN oldSize newSize (n :: rest) count total offset =
      (if n = count then
        ubsLoopN oldSize newSize rest (count + 1) (total + oldSize)
          (some (offset.getD count))
      else
        match offset with
        | some _ =>
          .error (if newSize = 0 then .zeroDivisionError else .typeError)
        | none => ubsLoopN oldSize newSize rest (count + 1) total none) := rfl

lemma ubsLoop_map_renderNat (oldSize newSize : Nat) (idxs : List Nat) :
    ∀ count total offset,
      ubsLoop oldSize newSize (idxs.map renderNat) count total offset =
        ubsLoopN oldSize newSize idxs count total offset := by
  induction idxs with
  | nil => intro count total offset; rfl
  | cons n rest ih =>
    intro count total offset
    simp only [List.map_cons]
    have hstep : ubsLoop oldSize newSize
        (renderNat n :: List.map renderNat rest) count total offset =
        (if n = count then
          ubsLoop oldSize newSize (List.map renderNat rest) (count + 1)
            (total + oldSize) (some (offset.getD count))
        else
          match offset with
          | some _ =>
            .error (if newSize = 0 then .zeroDivisionError else .typeError)
          | none =>
            ubsLoop oldSize newSize (List.map renderNat rest) (count + 1)
              total none) := by
      rw [ubsLoop_cons, parseNat_renderNat]
    rw [hstep, ubsLoopN_cons]
    by_cases hn : n = count
    · rw [if_pos hn, if_pos hn]
      exact ih _ _ _
    · rw [if_neg hn, if_neg hn]
      cases offset with
      | some o => rfl
      | none => exact ih _ _ _

lemma range'_cons (s n : Nat) : List.range' s (n + 1) = s :: List.range' (s + 1) n := rfl

lemma ubsLoopN_run_some (oldSize newSize m : Nat) :
    ∀ count total o,
      ubsLoopN oldSize newSize (List.range' count m) count total (some o) =
        .ok (some (o, total + m * oldSize)) := by
  induction m with
  | zero => intro count total o; simp [ubsLoopN, List.range']
  | succ m ih =>
    intro count total o
    rw [range'_cons, ubsLoopN_cons, if_pos rfl, Option.getD_some, ih]
    have : total + oldSize + m * oldSize = total + (m + 1) * oldSize := by ring
    rw [this]

lemma ubsLoopN_run_none (oldSize newSize m : Nat) :
    ∀ count total,
      ubsLoopN oldSize newSize (List.range' count m) count total none =
        .ok (if m = 0 then none else some (count, total + m * oldSize)) := by
  intro count total
  cases m with
  | zero => simp [ubsLoopN, List.range']
  | succ m =>
    rw [range'_cons, ubsLoopN_cons, if_pos rfl, Option.getD_none,
      ubsLoopN_run_some]
    have h1 : (m + 1 : Nat) ≠ 0 := by omega
    rw [if_neg h1]
    have : total + oldSize + m * oldSize = total + (m + 1) * oldSize := by ring
    rw [this]

lemma ubsLoopN_pre (oldSize newSize : Nat) (pre : List Nat) :
    ∀ m count total,
      (∀ i v, pre[i]? = some v → v ≠ count + i) →
      ubsLoopN oldSize newSize (pre ++ List.range' (count + pre.length) m)
          count total none =
        .ok (if m = 0 then none
             else some (count + pre.length, total + m * oldSize)) := by
  induction pre with
  | nil =>
    intro m count total _
    simp only [List.nil_append, List.length_nil, Nat.add_zero]
    exact ubsLoopN_run_none oldSize newSize m count total
  | cons p ps ih =>
    intro m count total hpre
    have hp : p ≠ count := by
      have := hpre 0 p (by simp)
      simpa using this
    simp only [List.cons_append]
    rw [ubsLoopN_cons, if_neg hp]
    have hps : ∀ i v, ps[i]? = some v → v ≠ (count + 1) + i := by
      intro i v hv
      have := hpre (i + 1) v (by simpa using hv)
      omega
    have harg : count + (p :: ps).length = (count + 1) + ps.length := by
      simp [List.length_cons]; omega
    rw [harg, ih m (count + 1) total hps]

lemma ubsLoopN_err_some (oldSize newSize : Nat) (bs : List Nat) :
    ∀ count total o,
      (∃ j v, bs[j]? = some v ∧ v ≠ count + j) →
      ubsLoopN oldSize newSize bs count total (some o) =
        .error (if newSize = 0 then .zeroDivisionError else .typeError) := by
  induction bs with
  | nil =>
    intro count total o h
    obtain ⟨j, v, hj, _⟩ := h
    simp at hj
  | cons w rest ih =>
    intro count total o h
    obtain ⟨j, v, hj, hne⟩ := h
    by_cases hw : w = count
    · rw [ubsLoopN_cons, if_pos hw, Option.getD_some]
      cases j with
      | zero =>
        rw [List.getElem?_cons_zero] at hj
        have hv : w = v := Option.some_inj.mp hj
        exact absurd (by omega) hne
      | succ j =>
        rw [List.getElem?_cons_succ] at hj
        exact ih (count + 1) (total + oldSize) o ⟨j, v, hj, by omega⟩
    · rw [ubsLoopN_cons, if_neg hw]

lemma ubsLoopN_err_none (oldSize newSize : Nat) (bs : List Nat) :
    ∀ count total,
      (∃ i j v, i < j ∧ bs[i]? = some (count + i) ∧
        bs[j]? = some v ∧ v ≠ count + j) →
      ubsLoopN oldSize newSize bs count total none =
        .error (if newSize = 0 then .zeroDivisionError else .typeError) := by
  induction bs with
  | nil =>
    intro count total h
    obtain ⟨i, j, v, _, hi, _⟩ := h
    simp at hi
  | cons w rest ih =>
    intro count total h
    obtain ⟨i, j, v, hij, hi, hj, hne⟩ := h
    by_cases hw : w = count
    · rw [ubsLoopN_cons, if_pos hw, Option.getD_none]
      have hj0 : j ≠ 0 := by omega
      obtain ⟨j', rfl⟩ := Nat.exists_eq_succ_of_ne_zero hj0
      rw [List.getElem?_cons_succ] at hj
      exact ubsLoopN_err_some oldSize newSize rest (count + 1) (total + oldSize)
        count ⟨j', v, hj, by omega⟩
    · rw [ubsLoopN_cons, if_neg hw]
      have hi0 : i ≠ 0 := by
        intro h0
        subst h0
        rw [List.getElem?_cons_zero] at hi
        exact hw (by simpa using hi)
      obtain ⟨i', rfl⟩ := Nat.exists_eq_succ_of_ne_zero hi0
      have hj0 : j ≠ 0 := by omega
      obtain ⟨j', rfl⟩ := Nat.exists_eq_succ_of_ne_zero hj0
      rw [List.getElem?_cons_succ] at hi hj
      refine ih (count + 1) total ⟨i', j', v, by omega, ?_, hj, by omega⟩
      have : count + (i' + 1) = (count + 1) + i' := by omega
      rw [← this]
      exact hi

/-- C2 — claim theorem (amended): `update_block_size` is a no-op when the
size is unchanged. Otherwise, for a positive new size, the loop only
recognises entries equal to their *list position*: when the parsed block
list decomposes as `pre ++ [pre.length, …, pre.length + m - 1]` with no
entry of `pre` equal to its position, the entries of `pre` are discarded
and the trailing run (old offset `pre.length`, covering `m * old` bytes)
is re-expressed as new indices
`[pre.length*old/new, pre.length*old/new + m*old/new)`; and when an
entry equal to its position is followed by a later entry that is not,
the call raises `TypeError` (`range()` applied to the float produced by
true division). The rewritten record carries the new size. -/
theorem update_block_size_amended (r : FileResume) (newSize : Nat)
    (idxs : List Nat) (hblocks : r.blocks = idxs.map renderNat) :
    (r.size = newSize → r.update_block_size newSize = .ok r) ∧
    (r.size ≠ newSize → 0 < newSize →
      (∀ (pre : List Nat) (m : Nat), idxs = pre ++ List.range' pre.length m →
        (∀ i v : Nat, pre[i]? = some v → v ≠ i) →
        r.update_block_size newSize =
          .ok ⟨newSize, (List.range' (pre.length * r.size / newSize)
            (m * r.size / newSize)).map renderNat⟩) ∧
      ((∃ (i j v : Nat), i < j ∧ idxs[i]? = some i ∧ idxs[j]? = some v ∧ v ≠ j) →
        r.update_block_size newSize = .error .typeError)) := by
  constructor
  · intro heq
    unfold FileResume.update_block_size
    rw [if_pos heq]
  · intro hne hpos
    constructor
    · intro pre m hdecomp hpre
      have hpre0 : ∀ i v, pre[i]? = some v → v ≠ 0 + i := by
        intro i v hv
        have := hpre i v hv
        omega
      have hloop : ubsLoop r.size newSize r.blocks 0 0 none =
          .ok (if m = 0 then none
               else some (0 + pre.length, 0 + m * r.size)) := by
        rw [hblocks, ubsLoop_map_renderNat, hdecomp]
        have hrange : List.range' pre.length m =
            List.range' (0 + pre.length) m := by
          rw [Nat.zero_add]
        rw [hrange]
        exact ubsLoopN_pre r.size newSize pre m 0 0 hpre0
      rw [update_block_size_of_loop_ok r newSize hne _ hloop]
      by_cases hm : m = 0
      · subst hm
        rw [if_pos rfl]
        simp [ubsFinish, List.range']
      · rw [if_neg hm]
        simp only [ubsFinish, Nat.zero_add]
        rw [if_neg (by omega : ¬newSize = 0)]
    · intro hex
      obtain ⟨i, j, v, hij, hi, hj, hvj⟩ := hex
      have hloop : ubsLoop r.size newSize r.blocks 0 0 none =
          .error (if newSize = 0 then .zeroDivisionError else .typeError) := by
        rw [hblocks, ubsLoop_map_renderNat]
        exact ubsLoopN_err_none r.size newSize idxs 0 0
          ⟨i, j, v, hij, by simpa using hi, hj, by omega⟩
      rw [if_neg (by omega : ¬newSize = 0)] at hloop
      exact update_block_size_of_loop_err r newSize hne _ hloop

/-- C2 — witness: rescaling a record with old piece size 2 and completed
blocks `["0","1"]` (the leading run) to piece size 1 yields blocks
`["0","1","2","3"]`. -/
theorem update_block_size_amended_witness :
    FileResume.update_block_size ⟨2, [['0'], ['1']]⟩ 1 =
      .ok ⟨1, [['0'], ['1'], ['2'], ['3']]⟩ := by
  have h := ((update_block_size_amended ⟨2, [['0'], ['1']]⟩ 1 [0, 1]
    (by decide)).2 (by decide) (by decide)).1 [] 2 (by decide)
    (fun i v hv => by simp at hv)
  rw [h]
  decide

/-- C2 — counterexample: old piece size 2, completed blocks `["1","2"]`
(the maximal run of consecutive completed pieces `[1,3)` covering bytes
`[2,6)`), new size 1. The claim demands new indices `[2,6)`, i.e.
`["2","3","4","5"]`; the code discards the run entirely (it only
recognises entries equal to their *list position*) and stores `[]`. -/
theorem update_block_size_cex :
    FileResume.update_block_size ⟨2, [['1'], ['2']]⟩ 1 = .ok ⟨1, []⟩ ∧
    FileResume.update_block_size ⟨2, [['1'], ['2']]⟩ 1 ≠
      .ok ⟨1, [['2'], ['3'], ['4'], ['5']]⟩ := by
  constructor
  · decide
  · decide

/-! ## The digest verifier (`verify_checksum`)

Hashing itself (`hashlib`, `filehash`) is external; a download target is
therefore represented by the function `fileHash` giving the (lowercase)
hex digest of the local file under each algorithm. `pgp_verify_sig`
delegates to an external GPG binary; its outcome is the parameter
`pgpResult` (`none` models the exceptions the caller swallows, e.g. a
missing verifier). -/

/-- ASCII lowercasing of one character (`str.lower` on the data the
verifier handles). -/
def pyLowerChar (c : Char) : Char :=
  if 65 ≤ c.toNat ∧ c.toNat ≤ 90 then Char.ofNat (c.toNat + 32) else c

/-- Python `str.lower()`. -/
def pyLower (s : PyStr) : PyStr := s.map pyLowerChar

/-- The five hash algorithms `verify_checksum` knows. -/
inductive HashAlgo where
  | sha512 | sha384 | sha256 | sha1 | md5
  deriving DecidableEq, Repr

/-- The `checksums` dictionary restricted to the keys `verify_checksum`
looks up (`"pgp"` and the five hash algorithms); `none` models an
absent key (`KeyError`). -/
structure Checksums where
  pgp : Option PyStr := none
  sha512 : Option PyStr := none
  sha384 : Option PyStr := none
  sha256 : Option PyStr := none
  sha1 : Option PyStr := none
  md5 : Option PyStr := none
  deriving DecidableEq, Repr

/-- Dictionary lookup of a hash algorithm's expected digest. -/
def Checksums.get (c : Checksums) : HashAlgo → Option PyStr
  | .sha512 => c.sha512
  | .sha384 => c.sha384
  | .sha256 => c.sha256
  | .sha1 => c.sha1
  | .md5 => c.md5

/-- `len(hashlist)`: the number of keys present. -/
def Checksums.count (c : Checksums) : Nat :=
  (if c.pgp.isSome then 1 else 0) + (if c.sha512.isSome then 1 else 0) +
  (if c.sha384.isSome then 1 else 0) + (if c.sha256.isSome then 1 else 0) +
  (if c.sha1.isSome then 1 else 0) + (if c.md5.isSome then 1 else 0)

/-- `verify_checksum(local_file, checksums)`: try `pgp` first (absent
key or a swallowed exception falls through), then each hash algorithm
from sha512 down to md5; the first algorithm whose key is present
decides by comparing `filehash(...)` with the expected value lowercased. -/
def verify_checksum (pgpResult : Option Bool) (fileHash : HashAlgo → PyStr)
    (c : Checksums) : Bool :=
  match c.pgp, pgpResult with
  | some _, some b => b
  | _, _ =>
    match c.sha512 with
    | some h => fileHash .sha512 == pyLower h
    | none =>
      match c.sha384 with
      | some h => fileHash .sha384 == pyLower h
      | none =>
        match c.sha256 with
        | some h => fileHash .sha256 == pyLower h
        | none =>
          match c.sha1 with
          | some h => fileHash .sha1 == pyLower h
          | none =>
            match c.md5 with
            | some h => fileHash .md5 == pyLower h
            | none => true

/-- The strongest hash algorithm present, in the order the source tries
them: sha512, sha384, sha256, sha1, md5. -/
def strongestHash (c : Checksums) : Option HashAlgo :=
  match c.sha512 with
  | some _ => some .sha512
  | none =>
    match c.sha384 with
    | some _ => some .sha384
    | none =>
      match c.sha256 with
      | some _ => some .sha256
      | none =>
        match c.sha1 with
        | some _ => some .sha1
        | none =>
          match c.md5 with
          | some _ => some .md5
          | none => none

/-- C1 — claim theorem: over the five digest algorithms (no `pgp`
entry), the strongest present algorithm alone decides
`verify_checksum`: the result equals the comparison of the file's hash
under that algorithm with the stored digest (lowercased); an empty
mapping yields `true`; and in particular a mismatching sha512 digest
together with a matching md5 digest yields `false`. -/
theorem verify_checksum_strongest_decides (pgpResult : Option Bool)
    (fileHash : HashAlgo → PyStr) (c : Checksums) (hpgp : c.pgp = none) :
    (∀ a h, strongestHash c = some a → c.get a = some h →
      verify_checksum pgpResult fileHash c = (fileHash a == pyLower h)) ∧
    (strongestHash c = none → verify_checksum pgpResult fileHash c = true) ∧
    (∀ d m, fileHash .sha512 ≠ pyLower d →
      verify_checksum pgpResult fileHash
        { pgp := none, sha512 := some d, md5 := some m } = false) := by
  refine ⟨?_, ?_, ?_⟩
  · intro a h ha hh
    obtain ⟨p, s512, s384, s256, s1, m5⟩ := c
    simp only at hpgp
    subst hpgp
    cases s512 <;> cases s384 <;> cases s256 <;> cases s1 <;> cases m5 <;>
      simp only [strongestHash, Option.some.injEq] at ha <;>
      (try exact absurd ha (by simp)) <;>
      (subst ha; simp only [Checksums.get, Option.some.injEq] at hh; subst hh;
       simp [verify_checksum])
  · intro hnone
    obtain ⟨p, s512, s384, s256, s1, m5⟩ := c
    simp only at hpgp
    subst hpgp
    cases s512 <;> cases s384 <;> cases s256 <;> cases s1 <;> cases m5 <;>
      simp only [strongestHash] at hnone <;>
      first
      | rfl
      | exact absurd hnone (by simp)
  · intro d m hmm
    have : (fileHash .sha512 == pyLower d) = false := by
      rw [beq_eq_false_iff_ne]
      exact hmm
    simp [verify_checksum, this]

/-- C1 — witness: a concrete mismatching sha512 plus matching md5
decides `false` through the sha512 slot alone. -/
theorem verify_checksum_strongest_decides_witness :
    verify_checksum none (fun _ => ['a', 'b'])
      { pgp := none, sha512 := some ['c', 'd'], md5 := some ['a', 'b'] } =
      false :=
  (verify_checksum_strongest_decides none (fun _ => ['a', 'b'])
    { pgp := none, sha512 := some ['c', 'd'], md5 := some ['a', 'b'] }
    rfl).2.2 ['c', 'd'] ['a', 'b'] (by decide)

/-! ## `download_file_urls`: the skip-if-present check (source lines
396–424)

The side effects (prints, the actual download) are irrelevant to the
decision; the embedded function returns whether the existing file is
accepted (`skip`) or the download proceeds, or which exception escapes.
`handlers["status"](…)` with no `"status"` key raises `KeyError`; the
size-equality path guards the same call with `"status" in handlers`. -/

/-- Outcome of the existing-file check. -/
inductive SkipDecision where
  | skip
  | download
  deriving DecidableEq, Repr

/-- The `os.path.exists(...) and (not force)` block of
`download_file_urls`: `actSize` is `os.stat(...).st_size`, `mfSize` is
`metalinkfile.size`, `hasStatus` is `"status" in handlers`. -/
def download_file_urls_check (fileExists force : Bool) (actSize : Nat)
    (c : Checksums) (pgpResult : Option Bool) (fileHash : HashAlgo → PyStr)
    (mfSize : Int) (hasStatus : Bool) : Except PyErr SkipDecision :=
  if fileExists && !force then
    match (if c.count > 0 then
        (if verify_checksum pgpResult fileHash c then
          (if hasStatus then Except.ok (some SkipDecision.skip)
           else Except.error PyErr.keyError)
         else Except.ok none)
      else Except.ok none : Except PyErr (Option SkipDecision)) with
    | .error e => .error e
    | .ok (some d) => .ok d
    | .ok none =>
      if mfSize = (actSize : Int) then .ok .skip
      else .ok .download
  else .ok .download

/-- C10 — claim theorem: with digests present and verifying, the
skip path calls `handlers["status"]` unguarded, so an empty handlers
dictionary raises `KeyError`; the size-equality path guards the call
and skips without error even with no status handler. -/
theorem status_handler_guard_asymmetry (actSize : Nat) (c : Checksums)
    (pgpResult : Option Bool) (fileHash : HashAlgo → PyStr) (mfSize : Int)
    (h1 : 0 < c.count) (h2 : verify_checksum pgpResult fileHash c = true)
    (c0 : Checksums) (h0 : c0.count = 0) :
    download_file_urls_check true false actSize c pgpResult fileHash
      mfSize false = .error .keyError ∧
    download_file_urls_check true false actSize c0 pgpResult fileHash
      (actSize : Int) false = .ok .skip := by
  constructor
  · unfold download_file_urls_check
    rw [if_pos (by decide : (true && !false) = true), if_pos h1, if_pos h2,
      if_neg (by simp : ¬false = true)]
  · unfold download_file_urls_check
    rw [if_pos (by decide : (true && !false) = true),
      if_neg (by omega : ¬c0.count > 0), if_pos rfl]

/-- C10 — witness: concrete instances of both paths. -/
theorem status_handler_guard_asymmetry_witness :
    download_file_urls_check true false 5 { md5 := some ['a', 'b'] } none
      (fun _ => ['a', 'b']) 9 false = .error .keyError ∧
    download_file_urls_check true false 5 {} none
      (fun _ => ['a', 'b']) (5 : Int) false = .ok .skip :=
  status_handler_guard_asymmetry 5 { md5 := some ['a', 'b'] } none
    (fun _ => ['a', 'b']) 9 (by decide) (by decide) {} (by decide)

/-- C6 — the code evaluated at the failing input: file exists, `force`
false, an md5 digest is present and fails verification (stored digest
`"ab"`, actual file hash `"cd"`), yet because the on-disk size equals
`metalinkfile.size` the function still accepts the file and skips the
download, directly after printing that it will retry it. -/
theorem checksum_fail_still_skips_by_size :
    download_file_urls_check true false 5 { md5 := some ['a', 'b'] } none
      (fun _ => ['c', 'd']) 5 true = .ok .skip := by
  decide

/-! ## `Segment_Manager.run`: piece-size adjustment

`self.size / self.chunk_size` and `self.size / MAX_CHUNKS` are Python 3
true division; modelled with exact rationals (float rounding is exact at
all realistic magnitudes). -/

/-- `MAX_CHUNKS` (source line 117). -/
def MAX_CHUNKS : Nat := 256

/-- The piece-size adjustment in `Segment_Manager.run` (lines
1647–1648): only when there are no piece digests and
`size / chunk_size > MAX_CHUNKS` is the chunk size raised to
`size / MAX_CHUNKS`. -/
def run_adjust_chunk_size (chunksumsLen : Nat) (size chunk_size : ℚ) : ℚ :=
  if chunksumsLen = 0 ∧ size / chunk_size > (MAX_CHUNKS : ℚ) then
    size / (MAX_CHUNKS : ℚ)
  else chunk_size

/-- C7 — claim theorem: with no piece digests, the piece size is raised
to `size / 256` exactly when `size / piece_size > 256`, and afterwards
the piece count `⌈size / piece_size⌉` never exceeds 256; with piece
digests present the piece size is left unchanged. -/
theorem run_piece_count_bound (size chunk : ℚ) (hs : 0 < size)
    (_hc : 0 < chunk) :
    (size / chunk > 256 → run_adjust_chunk_size 0 size chunk = size / 256) ∧
    ⌈size / run_adjust_chunk_size 0 size chunk⌉ ≤ 256 ∧
    (∀ n : Nat, n ≠ 0 → run_adjust_chunk_size n size chunk = chunk) := by
  have hM : ((MAX_CHUNKS : Nat) : ℚ) = 256 := by norm_num [MAX_CHUNKS]
  have hadj : size / chunk > 256 →
      run_adjust_chunk_size 0 size chunk = size / 256 := by
    intro h
    unfold run_adjust_chunk_size
    rw [if_pos ⟨rfl, by rw [hM]; exact h⟩, hM]
  refine ⟨hadj, ?_, ?_⟩
  · by_cases hcond : size / chunk > 256
    · rw [hadj hcond]
      have hsz : size ≠ 0 := ne_of_gt hs
      have h256 : size / (size / 256) = (256 : ℚ) := by
        rw [div_div_eq_mul_div, mul_comm, mul_div_assoc, div_self hsz, mul_one]
      rw [h256]
      rw [show ((256 : ℚ)) = ((256 : ℤ) : ℚ) by norm_num, Int.ceil_intCast]
    · have hrun : run_adjust_chunk_size 0 size chunk = chunk := by
        unfold run_adjust_chunk_size
        rw [if_neg (by rintro ⟨-, h2⟩; rw [hM] at h2; exact hcond h2)]
      rw [hrun]
      have hle : size / chunk ≤ 256 := not_lt.mp hcond
      exact Int.ceil_le.mpr (by exact_mod_cast hle)
  · intro n hn
    unfold run_adjust_chunk_size
    rw [if_neg (by rintro ⟨h1, -⟩; exact hn h1)]

/-- C7 — witness: a 1000000-byte file with initial piece size 1024 gets
piece size 1000000/256 and a piece count of exactly 256. -/
theorem run_piece_count_bound_witness :
    ⌈(1000000 : ℚ) / run_adjust_chunk_size 0 1000000 1024⌉ ≤ 256 :=
  (run_piece_count_bound 1000000 1024 (by norm_num) (by norm_num)).2.1

/-! ## `Segment_Manager.get_size`: the post-probe logic (lines
1606–1623)

The network probing loop collects `sizes` (successful `content-length`
values; FTP `SIZE` results behave the same once stringified) and
`checksums` (each non-empty parsed `Digest` header). What follows the
loop is pure and is modelled here. Python compares dictionaries; the
dictionaries are modelled as association lists (for the claim below
only a one-element `checksums` list matters, where list and dictionary
equality agree). -/

/-- The opportunistic digest-adoption step: when the file declares no
checksums and some probe returned a `Digest` header, the three unchained
`if` statements run in order; `checksums.count(checksums[1])` is
evaluated even when only one dictionary was observed, raising
`IndexError`. -/
def adopt_checksums (selfChecksums : List (PyStr × PyStr))
    (observed : List (List (PyStr × PyStr))) :
    Except PyErr (List (PyStr × PyStr)) :=
  if selfChecksums.length = 0 ∧ observed.length > 0 then
    match observed with
    | [] => .ok selfChecksums
    | d0 :: rest =>
      let r1 := if observed.length = 1 then d0 else selfChecksums
      let r2 := if observed.count d0 ≥ 2 then d0 else r1
      match rest with
      | [] => .error .indexError
      | d1 :: _ => .ok (if observed.count d1 ≥ 2 then d1 else r2)
  else .ok selfChecksums

/-- The tail of `get_size`: digest adoption, then the majority vote on
the collected sizes (`None` when empty or no agreement; note the size
branch, unlike the digest branch, returns before `sizes[1]` when only
one size was collected). -/
def get_size_post (selfChecksums : List (PyStr × PyStr))
    (observed : List (List (PyStr × PyStr))) (sizes : List PyStr) :
    Except PyErr (List (PyStr × PyStr) × Option Nat) :=
  match adopt_checksums selfChecksums observed with
  | .error e => .error e
  | .ok newC =>
    match sizes with
    | [] => .ok (newC, none)
    | s0 :: rest =>
      if sizes.length = 1 then
        match parseNat s0 with
        | some n => .ok (newC, some n)
        | none => .error .valueError
      else if sizes.count s0 ≥ 2 then
        match parseNat s0 with
        | some n => .ok (newC, some n)
        | none => .error .valueError
      else
        match rest with
        | [] => .ok (newC, none)
        | s1 :: _ =>
          if sizes.count s1 ≥ 2 then
            match parseNat s1 with
            | some n => .ok (newC, some n)
            | none => .error .valueError
          else .ok (newC, none)

/-- C9 — claim theorem: with no declared whole-file checksums and
exactly one observed `Digest` dictionary, `get_size` raises
`IndexError` (from `checksums[1]`) instead of returning the probed
size, whatever sizes were collected. -/
theorem get_size_single_digest_index_error
    (d : List (PyStr × PyStr)) (sizes : List PyStr) :
    get_size_post [] [d] sizes = .error .indexError := by
  have hadopt : adopt_checksums [] [d] = .error .indexError := by
    unfold adopt_checksums
    rw [if_pos ⟨rfl, by simp⟩]
  unfold get_size_post
  rw [hadopt]

/-! ## `download_metalink`: the locale filter (lines 921–929) -/

/-- A Metalink file node, reduced to the fields the filter reads:
`file_node.os` (a list of OS tags) and `file_node.language`. -/
structure FileNode where
  os : List PyStr
  language : PyStr
  deriving DecidableEq, Repr

/-- The condition under which `download_metalink` calls
`download_file_node` for a node:
`OS is None or len(os_tag) == 0 or os_tag[0].lower() == OS.lower()`
and
`"any" in LANG or len(lang_tag) == 0 or lang_tag.lower() in LANG`.
`procOS` is the global `OS` (default `None`), `procLANG` the global
`LANG` (a *list* of language codes). -/
def locale_filter (procOS : Option PyStr) (procLANG : List PyStr)
    (node : FileNode) : Bool :=
  (match procOS with
   | none => true
   | some o =>
     match node.os with
     | [] => true
     | t :: _ => pyLower t == pyLower o) &&
  (procLANG.contains ('a' :: 'n' :: 'y' :: []) || node.language.isEmpty ||
    procLANG.contains (pyLower node.language))

/-- The file nodes `download_metalink` attempts to download, in order. -/
def download_metalink_selects (procOS : Option PyStr) (procLANG : List PyStr)
    (files : List FileNode) : List FileNode :=
  files.filter (fun f => locale_filter procOS procLANG f)

/-- Modelled from the spec: the locale filter as the claim states it —
the node's os tag is empty or matches the process OS case-insensitively,
and the node's lang tag is empty, equals `"any"`, or matches the process
LANG. -/
def locale_filter_claimed (procOS : PyStr) (procLANG : PyStr)
    (node : FileNode) : Bool :=
  (node.os.isEmpty ||
    (match node.os with
     | [] => false
     | t :: _ => pyLower t == pyLower procOS)) &&
  (node.language.isEmpty || node.language == ('a' :: 'n' :: 'y' :: []) ||
    pyLower node.language == pyLower procLANG)

lemma locale_filter_iff (procOS : Option PyStr) (procLANG : List PyStr)
    (node : FileNode) :
    locale_filter procOS procLANG node = true ↔
      (procOS = none ∨ node.os = [] ∨
        (∃ t rest o, node.os = t :: rest ∧ procOS = some o ∧
          pyLower t = pyLower o)) ∧
      (('a' :: 'n' :: 'y' :: []) ∈ procLANG ∨ node.language = [] ∨
        pyLower node.language ∈ procLANG) := by
  unfold locale_filter
  rw [Bool.and_eq_true]
  apply and_congr
  · cases hos : node.os with
    | nil =>
      cases procOS <;> simp [hos]
    | cons t rest =>
      cases procOS with
      | none => simp
      | some o =>
        simp only [beq_iff_eq, hos]
        constructor
        · intro h
          exact Or.inr (Or.inr ⟨t, rest, o, rfl, rfl, h⟩)
        · rintro (h | h | ⟨t', rest', o', het, heo, hlow⟩)
          · exact absurd h (by simp)
          · exact absurd h (by simp)
          · obtain ⟨rfl, rfl⟩ : t' = t ∧ rest' = rest := by
              constructor <;> (injection het with h1 h2; first | exact h1.symm | exact h2.symm)
            obtain rfl : o' = o := by injection heo with h1; exact h1.symm
            exact hlow
  · simp [List.contains, List.elem_iff, List.isEmpty_iff, or_assoc]

/-- C8 — counterexample: with process `OS = None`, process
`LANG = ["en"]` and a file node with empty os tag and lang tag
`"any"`, the claim's filter accepts the node, but `download_metalink`
does not download it: the code tests `"any" in LANG` (the process
list), never the node's own lang tag against `"any"`. -/
theorem download_metalink_locale_cex :
    locale_filter_claimed [] ('e' :: 'n' :: []) ⟨[], 'a' :: 'n' :: 'y' :: []⟩ = true ∧
    download_metalink_selects none [('e' :: 'n' :: [])]
      [⟨[], 'a' :: 'n' :: 'y' :: []⟩] = [] := by
  constructor
  · decide
  · decide

/-- C8 — claim theorem (amended): a file node is attempted exactly when
(the process OS is unset, or the node's os tag is empty, or its first os
entry matches the process OS case-insensitively) and (the process LANG
list contains `"any"`, or the node's lang tag is empty, or its
lowercased lang tag is a member of the process LANG list). -/
theorem download_metalink_selects_amended (procOS : Option PyStr)
    (procLANG : List PyStr) (files : List FileNode) (node : FileNode) :
    node ∈ download_metalink_selects procOS procLANG files ↔
      node ∈ files ∧
      ((procOS = none ∨ node.os = [] ∨
        (∃ t rest o, node.os = t :: rest ∧ procOS = some o ∧
          pyLower t = pyLower o)) ∧
      (('a' :: 'n' :: 'y' :: []) ∈ procLANG ∨ node.language = [] ∨
        pyLower node.language ∈ procLANG)) := by
  unfold download_metalink_selects
  rw [List.mem_filter]
  exact and_congr Iff.rfl (locale_filter_iff procOS procLANG node)

/-! ## `digest_parse`: the RFC 3230 `Digest` header parser

Python bytes are modelled as `List Nat` with entries `< 256`.
`binascii.a2b_base64` is modelled as standard base64 decoding (the
claim only exercises it on well-formed encodings);
`binascii.hexlify` produces the lowercase hex encoding. -/

/-- Whitespace for Python `str.strip()`. -/
def isSpaceCh (c : Char) : Bool :=
  c = ' ' || c = '\t' || c = '\n' || c = '\r' ||
  c = Char.ofNat 11 || c = Char.ofNat 12

/-- Python `str.strip()`. -/
def pyStrip (s : PyStr) : PyStr :=
  ((s.dropWhile isSpaceCh).reverse.dropWhile isSpaceCh).reverse

/-- The base64 alphabet character for a sextet `i < 64`. -/
def sextetChar (i : Nat) : Char :=
  if i < 26 then Char.ofNat (65 + i)
  else if i < 52 then Char.ofNat (97 + (i - 26))
  else if i < 62 then Char.ofNat (48 + (i - 52))
  else if i = 62 then '+' else '/'

/-- The sextet encoded by a base64 alphabet character, `none` for
anything outside the alphabet (including `'='`). -/
def sextetVal (c : Char) : Option Nat :=
  if 65 ≤ c.toNat ∧ c.toNat ≤ 90 then some (c.toNat - 65)
  else if 97 ≤ c.toNat ∧ c.toNat ≤ 122 then some (c.toNat - 97 + 26)
  else if 48 ≤ c.toNat ∧ c.toNat ≤ 57 then some (c.toNat - 48 + 52)
  else if c = '+' then some 62
  else if c = '/' then some 63
  else none

lemma sextetVal_sextetChar : ∀ i, i < 64 → sextetVal (sextetChar i) = some i := by
  decide

lemma sextetChar_ne_eq : ∀ i, i < 64 → sextetChar i ≠ '=' := by
  decide

lemma sextetChar_not_space_comma :
    ∀ i, i < 64 → isSpaceCh (sextetChar i) = false ∧ sextetChar i ≠ ',' := by
  decide

/-- Base64 encoding of a byte sequence (the inverse direction of the
header's `a2b_base64`, used to build well-formed headers). -/
def b64encode : List Nat → PyStr
  | [] => []
  | [x] => [sextetChar (x / 4), sextetChar (x % 4 * 16), '=', '=']
  | [x, y] =>
    [sextetChar (x / 4), sextetChar (x % 4 * 16 + y / 16),
     sextetChar (y % 16 * 4), '=']
  | x :: y :: z :: rest =>
    sextetChar (x / 4) :: sextetChar (x % 4 * 16 + y / 16) ::
    sextetChar (y % 16 * 4 + z / 64) :: sextetChar (z % 64) ::
    b64encode rest

/-- `binascii.a2b_base64` on canonical input: groups of four characters
decode to three bytes, a final `xx==` group to one byte, a final `xxx=`
group to two. -/
def b64decode : PyStr → Option (List Nat)
  | [] => some []
  | a :: b :: c :: d :: rest =>
    if c = '=' ∧ d = '=' ∧ rest = [] then
      match sextetVal a, sextetVal b with
      | some s1, some s2 => some [s1 * 4 + s2 / 16]
      | _, _ => none
    else if d = '=' ∧ rest = [] then
      match sextetVal a, sextetVal b, sextetVal c with
      | some s1, some s2, some s3 =>
        some [s1 * 4 + s2 / 16, s2 % 16 * 16 + s3 / 4]
      | _, _, _ => none
    else
      match sextetVal a, sextetVal b, sextetVal c, sextetVal d,
          b64decode rest with
      | some s1, some s2, some s3, some s4, some tail =>
        some ((s1 * 4 + s2 / 16) :: (s2 % 16 * 16 + s3 / 4) ::
          (s3 % 4 * 64 + s4) :: tail)
      | _, _, _, _, _ => none
  | _ => none

/-- The lowercase hex digit character for `d < 16` (as produced by
`binascii.hexlify`). -/
def hexDigitChar : Nat → Char
  | 0 => '0' | 1 => '1' | 2 => '2' | 3 => '3' | 4 => '4'
  | 5 => '5' | 6 => '6' | 7 => '7' | 8 => '8' | 9 => '9'
  | 10 => 'a' | 11 => 'b' | 12 => 'c' | 13 => 'd' | 14 => 'e' | _ => 'f'

/-- `binascii.hexlify`: two lowercase hex characters per byte. -/
def hexlify : List Nat → PyStr
  | [] => []
  | b :: rest => hexDigitChar (b / 16) :: hexDigitChar (b % 16) :: hexlify rest

/-- `str.split(sep, 1)`: split at the first occurrence only. -/
def pySplitOnce (sep : Char) : PyStr → List PyStr
  | [] => [[]]
  | c :: rest =>
    if c = sep then [[], rest]
    else
      match pySplitOnce sep rest with
      | g :: gs => (c :: g) :: gs
      | [] => [[c]]

theorem b64_roundtrip : ∀ bs : List Nat, (∀ b ∈ bs, b < 256) →
    b64decode (b64encode bs) = some bs
  | [], _ => rfl
  | [x], h => by
    have hx : x < 256 := h x (by simp)
    have h1 : x / 4 < 64 := by omega
    have h2 : x % 4 * 16 < 64 := by omega
    show b64decode
      [sextetChar (x / 4), sextetChar (x % 4 * 16), '=', '='] = some [x]
    unfold b64decode
    rw [if_pos ⟨rfl, rfl, rfl⟩, sextetVal_sextetChar _ h1,
      sextetVal_sextetChar _ h2]
    have e1 : x / 4 * 4 + x % 4 * 16 / 16 = x := by omega
    show some [x / 4 * 4 + x % 4 * 16 / 16] = some [x]
    rw [e1]
  | [x, y], h => by
    have hx : x < 256 := h x (by simp)
    have hy : y < 256 := h y (by simp)
    have h1 : x / 4 < 64 := by omega
    have h2 : x % 4 * 16 + y / 16 < 64 := by omega
    have h3 : y % 16 * 4 < 64 := by omega
    show b64decode [sextetChar (x / 4), sextetChar (x % 4 * 16 + y / 16),
      sextetChar (y % 16 * 4), '='] = some [x, y]
    unfold b64decode
    rw [if_neg (fun hcon => sextetChar_ne_eq _ h3 hcon.1),
      if_pos ⟨rfl, rfl⟩, sextetVal_sextetChar _ h1, sextetVal_sextetChar _ h2,
      sextetVal_sextetChar _ h3]
    have e1 : x / 4 * 4 + (x % 4 * 16 + y / 16) / 16 = x := by omega
    have e2 : (x % 4 * 16 + y / 16) % 16 * 16 + y % 16 * 4 / 4 = y := by omega
    show some [x / 4 * 4 + (x % 4 * 16 + y / 16) / 16,
      (x % 4 * 16 + y / 16) % 16 * 16 + y % 16 * 4 / 4] = some [x, y]
    rw [e1, e2]
  | x :: y :: z :: rest, h => by
    have hx : x < 256 := h x (by simp)
    have hy : y < 256 := h y (by simp)
    have hz : z < 256 := h z (by simp)
    have h1 : x / 4 < 64 := by omega
    have h2 : x % 4 * 16 + y / 16 < 64 := by omega
    have h3 : y % 16 * 4 + z / 64 < 64 := by omega
    have h4 : z % 64 < 64 := by omega
    have htail : b64decode (b64encode rest) = some rest :=
      b64_roundtrip rest (fun b hb => h b (by simp [hb]))
    show b64decode (sextetChar (x / 4) :: sextetChar (x % 4 * 16 + y / 16) ::
      sextetChar (y % 16 * 4 + z / 64) :: sextetChar (z % 64) ::
      b64encode rest) = some (x :: y :: z :: rest)
    unfold b64decode
    rw [if_neg (fun hcon => sextetChar_ne_eq _ h3 hcon.1),
      if_neg (fun hcon => sextetChar_ne_eq _ h4 hcon.1),
      sextetVal_sextetChar _ h1, sextetVal_sextetChar _ h2,
      sextetVal_sextetChar _ h3, sextetVal_sextetChar _ h4, htail]
    have e1 : x / 4 * 4 + (x % 4 * 16 + y / 16) / 16 = x := by omega
    have e2 : (x % 4 * 16 + y / 16) % 16 * 16 + (y % 16 * 4 + z / 64) / 4 = y := by
      omega
    have e3 : (y % 16 * 4 + z / 64) % 4 * 64 + z % 64 = z := by omega
    show some ((x / 4 * 4 + (x % 4 * 16 + y / 16) / 16) ::
      ((x % 4 * 16 + y / 16) % 16 * 16 + (y % 16 * 4 + z / 64) / 4) ::
      ((y % 16 * 4 + z / 64) % 4 * 64 + z % 64) :: rest) =
      some (x :: y :: z :: rest)
    rw [e1, e2, e3]

theorem b64encode_chars : ∀ bs : List Nat, (∀ b ∈ bs, b < 256) →
    ∀ c ∈ b64encode bs, c = '=' ∨ ∃ i, i < 64 ∧ c = sextetChar i
  | [], _ => by simp [b64encode]
  | [x], h => by
    have hx : x < 256 := h x (by simp)
    intro c hc
    simp only [b64encode, List.mem_cons, List.not_mem_nil, or_false] at hc
    rcases hc with rfl | rfl | rfl | rfl
    · exact Or.inr ⟨x / 4, by omega, rfl⟩
    · exact Or.inr ⟨x % 4 * 16, by omega, rfl⟩
    · exact Or.inl rfl
    · exact Or.inl rfl
  | [x, y], h => by
    have hx : x < 256 := h x (by simp)
    have hy : y < 256 := h y (by simp)
    intro c hc
    simp only [b64encode, List.mem_cons, List.not_mem_nil, or_false] at hc
    rcases hc with rfl | rfl | rfl | rfl
    · exact Or.inr ⟨x / 4, by omega, rfl⟩
    · exact Or.inr ⟨x % 4 * 16 + y / 16, by omega, rfl⟩
    · exact Or.inr ⟨y % 16 * 4, by omega, rfl⟩
    · exact Or.inl rfl
  | x :: y :: z :: rest, h => by
    have hx : x < 256 := h x (by simp)
    have hy : y < 256 := h y (by simp)
    have hz : z < 256 := h z (by simp)
    intro c hc
    simp only [b64encode, List.mem_cons] at hc
    rcases hc with rfl | rfl | rfl | rfl | hc
    · exact Or.inr ⟨x / 4, by omega, rfl⟩
    · exact Or.inr ⟨x % 4 * 16 + y / 16, by omega, rfl⟩
    · exact Or.inr ⟨y % 16 * 4 + z / 64, by omega, rfl⟩
    · exact Or.inr ⟨z % 64, by omega, rfl⟩
    · exact b64encode_chars rest (fun b hb => h b (by simp [hb])) c hc

lemma b64encode_char_clean (bs : List Nat) (hbs : ∀ b ∈ bs, b < 256)
    (c : Char) (hc : c ∈ b64encode bs) :
    isSpaceCh c = false ∧ c ≠ ',' := by
  rcases b64encode_chars bs hbs c hc with rfl | ⟨i, hi, rfl⟩
  · exact ⟨by decide, by decide⟩
  · exact sextetChar_not_space_comma i hi

lemma dropWhile_eq_self_of_none (p : Char → Bool) (l : PyStr)
    (h : ∀ c ∈ l, p c = false) : l.dropWhile p = l := by
  cases l with
  | nil => rfl
  | cons c rest =>
    rw [List.dropWhile_cons, if_neg (by simp [h c (by simp)])]

lemma pyStrip_eq_self (s : PyStr) (h : ∀ c ∈ s, isSpaceCh c = false) :
    pyStrip s = s := by
  unfold pyStrip
  rw [dropWhile_eq_self_of_none _ s h,
    dropWhile_eq_self_of_none _ s.reverse (fun c hc => h c (by simpa using hc)),
    List.reverse_reverse]

lemma pySplitOnce_append (sep : Char) (xs ys : PyStr) (h : sep ∉ xs) :
    pySplitOnce sep (xs ++ sep :: ys) = [xs, ys] := by
  induction xs with
  | nil =>
    simp only [List.nil_append]
    conv_lhs => unfold pySplitOnce
    rw [if_pos rfl]
  | cons c cs ih =>
    have hc : c ≠ sep := by
      intro hceq; subst hceq; exact h (List.mem_cons_self c cs)
    have hcs : sep ∉ cs := fun hm => h (List.mem_cons_of_mem c hm)
    simp only [List.cons_append]
    conv_lhs => unfold pySplitOnce
    rw [if_neg hc, ih hcs]

/-- Python dict assignment `d[k] = v` on an association list: replace
in place if the key exists, else append. -/
def dictSet (m : List (PyStr × PyStr)) (k v : PyStr) :
    List (PyStr × PyStr) :=
  if m.any (fun p => p.1 == k) then
    m.map (fun p => if p.1 == k then (k, v) else p)
  else m ++ [(k, v)]

lemma dictSet_fresh (m : List (PyStr × PyStr)) (k v : PyStr)
    (h : ∀ p ∈ m, p.1 ≠ k) : dictSet m k v = m ++ [(k, v)] := by
  unfold dictSet
  have hany : (m.any fun p => p.1 == k) = false := by
    rw [List.any_eq_false]
    intro p hp
    simpa using h p hp
  rw [hany]
  simp

/-- The key under which `digest_parse` stores an entry: the token
`sha` becomes `sha-1`, everything else is kept. -/
def normKey (k : PyStr) : PyStr :=
  if k = ('s' :: 'h' :: 'a' :: []) then ('s' :: 'h' :: 'a' :: '-' :: '1' :: [])
  else k

/-- The `for hash_str in hashes` loop of `digest_parse`:
`hash_str.split("=", 1)`, strip both parts, base64-decode the value
(`parts[1]`, whose absence raises `IndexError`), hex-encode, store. -/
def digestLoop (entries : List PyStr) (acc : List (PyStr × PyStr)) :
    Except PyErr (List (PyStr × PyStr)) :=
  match entries with
  | [] => .ok acc
  | e :: rest =>
    match pySplitOnce '=' e with
    | [] => .error .indexError
    | [_] => .error .indexError
    | p0 :: p1 :: _ =>
      match b64decode (pyStrip p1) with
      | none => .error .valueError
      | some bytes =>
        digestLoop rest (dictSet acc (normKey (pyStrip p0)) (hexlify bytes))

/-- `digest_parse(digest)`: `{}` for `None`, else split the header on
commas and process each `algo=base64value` entry. -/
def digest_parse (digest : Option PyStr) :
    Except PyErr (List (PyStr × PyStr)) :=
  match digest with
  | none => .ok []
  | some d => digestLoop (pySplit ',' d) []

/-- Modelled from the spec: the RFC 3230 `Digest` header built from a
mapping of algorithm tokens to raw digest bytes — comma-separated
`algo=base64value` entries (the header builder itself is not part of
the source; `digest_parse` only consumes such headers). -/
def format_digest_header (m : List (PyStr × List Nat)) : PyStr :=
  pyJoin ',' (m.map fun p => p.1 ++ '=' :: b64encode p.2)

lemma digestLoop_cons (e : PyStr) (rest : List PyStr)
    (acc : List (PyStr × PyStr)) :
    digestLoop (e :: rest) acc =
      (match pySplitOnce '=' e with
      | [] => .error .indexError
      | [_] => .error .indexError
      | p0 :: p1 :: _ =>
        match b64decode (pyStrip p1) with
        | none => .error .valueError
        | some bytes =>
          digestLoop rest
            (dictSet acc (normKey (pyStrip p0)) (hexlify bytes))) := rfl

lemma digestLoop_spec (m : List (PyStr × List Nat)) :
    ∀ acc : List (PyStr × PyStr),
      (∀ p ∈ m, ∀ c ∈ p.1, isSpaceCh c = false ∧ c ≠ ',' ∧ c ≠ '=') →
      (∀ p ∈ m, ∀ b ∈ p.2, b < 256) →
      (m.map fun p => normKey p.1).Nodup →
      (∀ q ∈ acc, ∀ p ∈ m, q.1 ≠ normKey p.1) →
      digestLoop (m.map fun p => p.1 ++ '=' :: b64encode p.2) acc =
        .ok (acc ++ m.map fun p => (normKey p.1, hexlify p.2)) := by
  induction m with
  | nil =>
    intro acc _ _ _ _
    simp [digestLoop]
  | cons kb rest ih =>
    obtain ⟨k, bs⟩ := kb
    intro acc hkeys hbytes hnodup hfresh
    have hkmem : (k, bs) ∈ (k, bs) :: rest := List.mem_cons_self _ _
    have hknoeq : '=' ∉ k := fun hm => (hkeys (k, bs) hkmem '=' hm).2.2 rfl
    have hknospace : ∀ c ∈ k, isSpaceCh c = false :=
      fun c hc => (hkeys (k, bs) hkmem c hc).1
    have hbs : ∀ b ∈ bs, b < 256 := hbytes (k, bs) hkmem
    have hb64nospace : ∀ c ∈ b64encode bs, isSpaceCh c = false :=
      fun c hc => (b64encode_char_clean bs hbs c hc).1
    simp only [List.map_cons, digestLoop_cons,
      pySplitOnce_append '=' k (b64encode bs) hknoeq,
      pyStrip_eq_self (b64encode bs) hb64nospace,
      pyStrip_eq_self k hknospace, b64_roundtrip bs hbs]
    rw [dictSet_fresh acc (normKey k) (hexlify bs)
      (fun q hq => hfresh q hq (k, bs) hkmem)]
    have hnodup2 : (rest.map fun p => normKey p.1).Nodup := by
      simpa using hnodup.of_cons
    have hfresh2 : ∀ q ∈ acc ++ [(normKey k, hexlify bs)], ∀ p ∈ rest,
        q.1 ≠ normKey p.1 := by
      intro q hq p hp
      rcases List.mem_append.mp hq with hqa | hqn
      · exact hfresh q hqa p (List.mem_cons_of_mem _ hp)
      · have : q = (normKey k, hexlify bs) := by simpa using hqn
        subst this
        have hnotin : normKey k ∉ rest.map fun p => normKey p.1 := by
          have := hnodup
          rw [List.map_cons, List.nodup_cons] at this
          exact this.1
        intro hcon
        have hcon2 : normKey k = normKey p.1 := hcon
        exact hnotin (hcon2 ▸ List.mem_map_of_mem _ hp)
    rw [ih (acc ++ [(normKey k, hexlify bs)])
      (fun p hp => hkeys p (List.mem_cons_of_mem _ hp))
      (fun p hp => hbytes p (List.mem_cons_of_mem _ hp)) hnodup2 hfresh2]
    simp

/-- C4 — claim theorem (amended): parsing a well-formed `Digest` header
built from a mapping of algorithm tokens to raw digest bytes returns
the mapping whose keys are the original tokens except that `sha` is
stored under the key `sha-1` (not `sha1`), and whose values are the
lowercase hexadecimal encodings of the digest bytes. -/
theorem digest_parse_roundtrip (m : List (PyStr × List Nat)) (hne : m ≠ [])
    (hkeys : ∀ p ∈ m, ∀ c ∈ p.1, isSpaceCh c = false ∧ c ≠ ',' ∧ c ≠ '=')
    (hbytes : ∀ p ∈ m, ∀ b ∈ p.2, b < 256)
    (hnodup : (m.map fun p => normKey p.1).Nodup) :
    digest_parse (some (format_digest_header m)) =
      .ok (m.map fun p => (normKey p.1, hexlify p.2)) := by
  have hsplit : pySplit ','
      (pyJoin ',' (m.map fun p => p.1 ++ '=' :: b64encode p.2)) =
      m.map fun p => p.1 ++ '=' :: b64encode p.2 := by
    apply pySplit_pyJoin
    · simpa using hne
    · intro e he hmem
      obtain ⟨p, hp, rfl⟩ := List.mem_map.mp he
      rcases List.mem_append.mp hmem with hk | hv
      · exact absurd rfl (hkeys p hp ',' hk).2.1
      · rcases List.mem_cons.mp hv with heq | hb64
        · exact absurd heq (by decide)
        · exact absurd rfl (b64encode_char_clean p.2 (hbytes p hp) ',' hb64).2
  simp only [digest_parse, format_digest_header]
  rw [hsplit]
  simpa using digestLoop_spec m [] hkeys hbytes hnodup (by simp)

/-- C4 — witness: the header built from `{md5: [0xAB]}` parses back to
`{md5: "ab"}`. -/
theorem digest_parse_roundtrip_witness :
    digest_parse (some (format_digest_header
      [(('m' :: 'd' :: '5' :: []), [171])])) =
      .ok [(('m' :: 'd' :: '5' :: []), ('a' :: 'b' :: []))] := by
  have h := digest_parse_roundtrip [(('m' :: 'd' :: '5' :: []), [171])]
    (by decide) (by decide) (by decide) (by decide)
  rw [h]
  decide

/-- C4 — counterexample: the header `"sha=qw=="` (base64 of the byte
0xAB under the token `sha`) parses to the key `"sha-1"`, not `"sha1"`
as the claim states. -/
theorem digest_parse_sha_key_cex :
    digest_parse (some
      ('s' :: 'h' :: 'a' :: '=' :: 'q' :: 'w' :: '=' :: '=' :: [])) =
      .ok [(('s' :: 'h' :: 'a' :: '-' :: '1' :: []), ('a' :: 'b' :: []))] ∧
    ('s' :: 'h' :: 'a' :: '-' :: '1' :: ([] : List Char)) ≠
      ('s' :: 'h' :: 'a' :: '1' :: []) := by
  constructor
  · decide
  · decide

end Pymetalink
